import Mathlib

/-!
Verification development for the `lshensemble` LSH Forest index
(`lshforest.go`).  The Go code is shallow-embedded: byte strings become
lists of naturals, Go maps become association lists, goroutine fan-out
with a barrier becomes the corresponding sequential per-band computation
(each worker touches only its own band, so the joined result is the
same), and operations that can panic return `Option`.
-/

set_option autoImplicit false
set_option maxHeartbeats 1000000

namespace LshEnsemble

/-- Go byte strings, modelled as lists of naturals (one entry per byte). -/
abbrev GoStr := List Nat

/-- Go lexicographic string comparison `a < b` on byte strings:
compare bytes left to right; a proper prefix is smaller. -/
def strLt : GoStr → GoStr → Bool
  | [], [] => false
  | [], _ :: _ => true
  | _ :: _, [] => false
  | a :: as, b :: bs => if a < b then true else if b < a then false else strLt as bs

theorem strLt_irrefl (x : GoStr) : strLt x x = false := by
  induction x with
  | nil => rfl
  | cons a as ih => simp [strLt, ih]

theorem strLt_trans (x : GoStr) :
    ∀ y z : GoStr, strLt x y = true → strLt y z = true → strLt x z = true := by
  induction x with
  | nil =>
    intro y z hxy hyz
    cases y with
    | nil => simp [strLt] at hxy
    | cons b bs =>
      cases z with
      | nil => simp [strLt] at hyz
      | cons c cs => rfl
  | cons a as ih =>
    intro y z hxy hyz
    cases y with
    | nil => simp [strLt] at hxy
    | cons b bs =>
      cases z with
      | nil => simp [strLt] at hyz
      | cons c cs =>
        simp only [strLt] at hxy hyz ⊢
        split_ifs at hxy hyz ⊢ <;> try rfl
        all_goals try omega
        all_goals exact ih bs cs hxy hyz

theorem strLt_asymm {x y : GoStr} (h : strLt x y = true) : strLt y x = false := by
  induction x generalizing y with
  | nil =>
    cases y with
    | nil => simp [strLt] at h
    | cons b bs => rfl
  | cons a as ih =>
    cases y with
    | nil => simp [strLt] at h
    | cons b bs =>
      simp only [strLt] at h ⊢
      split_ifs at h ⊢ <;> try rfl
      all_goals try omega
      exact ih h

theorem strLt_antisymm {x y : GoStr}
    (hxy : strLt x y = false) (hyx : strLt y x = false) : x = y := by
  induction x generalizing y with
  | nil =>
    cases y with
    | nil => rfl
    | cons b bs => simp [strLt] at hxy
  | cons a as ih =>
    cases y with
    | nil => simp [strLt] at hyx
    | cons b bs =>
      simp only [strLt] at hxy hyx
      split_ifs at hxy hyx
      all_goals try simp_all
      have hab : a = b := by omega
      exact ⟨hab, ih hxy hyx⟩

/-- `x ≤ y` (i.e. `¬ y < x`) is transitive. -/
theorem strLe_trans {x y z : GoStr}
    (hxy : strLt y x = false) (hyz : strLt z y = false) : strLt z x = false := by
  by_contra hzx
  rw [Bool.not_eq_false] at hzx
  cases h3 : strLt x y with
  | true =>
    have h4 := strLt_trans z x y hzx h3
    rw [h4] at hyz
    simp at hyz
  | false =>
    have hx_eq := strLt_antisymm h3 hxy
    subst hx_eq
    rw [hzx] at hyz
    simp at hyz

/-- Taking a common-length prefix is monotone w.r.t. Go string order. -/
theorem strLt_of_strLt_take (p : Nat) (x y : GoStr)
    (h : strLt (x.take p) (y.take p) = true) : strLt x y = true := by
  induction p generalizing x y with
  | zero => simp [strLt] at h
  | succ q ih =>
    cases x with
    | nil =>
      cases y with
      | nil => simp [strLt] at h
      | cons b bs => rfl
    | cons a as =>
      cases y with
      | nil => simp [strLt] at h
      | cons b bs =>
        simp only [List.take_succ_cons, strLt] at h ⊢
        split_ifs at h ⊢ <;> try rfl
        exact ih as bs h

/-- Contrapositive form: `x ≤ y` implies `take p x ≤ take p y`. -/
theorem strLe_take {p : Nat} {x y : GoStr} (h : strLt y x = false) :
    strLt (y.take p) (x.take p) = false := by
  cases h2 : strLt (y.take p) (x.take p) with
  | false => rfl
  | true =>
    have := strLt_of_strLt_take p y x h2
    rw [h] at this
    exact this.symm

/-- Modelled from the spec: the encoded-key function (`hashKeyFuncGen` in the
repository, not part of the given source) maps each unsigned hash value to a
fixed-width big-endian block of `w` bytes, trimming the value to the low
`w` bytes; the concatenation over a value sequence is the encoded hash key.
This realises the spec contract that the encoding of a length-n prefix of a
value sequence is the length-`w·n` prefix of the encoding of the whole. -/
def encodeValue (w v : Nat) : GoStr :=
  (List.range w).map (fun i => v / 256 ^ (w - 1 - i) % 256)

/-- Modelled from the spec: the width-`w` encoded hash key of a value
sequence, i.e. the supplied `hashKeyFunc` capability. -/
def hashKeyFunc (w : Nat) (vs : List Nat) : GoStr :=
  vs.flatMap (encodeValue w)

@[simp] theorem encodeValue_length (w v : Nat) : (encodeValue w v).length = w := by
  simp [encodeValue]

@[simp] theorem hashKeyFunc_nil (w : Nat) : hashKeyFunc w [] = [] := rfl

theorem hashKeyFunc_cons (w v : Nat) (vs : List Nat) :
    hashKeyFunc w (v :: vs) = encodeValue w v ++ hashKeyFunc w vs := rfl

theorem hashKeyFunc_length (w : Nat) (vs : List Nat) :
    (hashKeyFunc w vs).length = w * vs.length := by
  induction vs with
  | nil => simp
  | cons v vs ih =>
    rw [hashKeyFunc_cons]
    simp [ih]
    ring

/-- The prefix property of the encoded-key function. -/
theorem hashKeyFunc_take (w : Nat) (vs : List Nat) (n : Nat) :
    (hashKeyFunc w vs).take (w * n) = hashKeyFunc w (vs.take n) := by
  induction vs generalizing n with
  | nil => simp
  | cons v vs ih =>
    cases n with
    | zero => simp
    | succ m =>
      rw [hashKeyFunc_cons, List.take_succ_cons, hashKeyFunc_cons]
      have hw : w * (m + 1) = (encodeValue w v).length + w * m := by
        simp [encodeValue_length]
        ring
      rw [hw, List.take_append, ih]

/-- Go slicing `s[a:b]`: panics (here: `none`) unless `0 ≤ a ≤ b ≤ len(s)`. -/
def goSlice (s : GoStr) (a b : Int) : Option GoStr :=
  if 0 ≤ a ∧ a ≤ b ∧ b ≤ (s.length : Int) then
    some ((s.take b.toNat).drop a.toNat)
  else none

theorem goSlice_take {s : GoStr} {p : Nat} (h : p ≤ s.length) :
    goSlice s 0 (p : Int) = some (s.take p) := by
  simp [goSlice, h]

theorem goSlice_isSome_iff {s : GoStr} {a b : Int} :
    (goSlice s a b).isSome ↔ 0 ≤ a ∧ a ≤ b ∧ b ≤ (s.length : Int) := by
  unfold goSlice
  split_ifs with h <;> simp [h]

theorem goSlice_window {s : GoStr} {a m : Nat} (h : a + m ≤ s.length) :
    goSlice s (a : Int) ((a : Int) + (m : Int)) = some ((s.drop a).take m) := by
  have hc : (0 : Int) ≤ (a : Int) ∧ (a : Int) ≤ (a : Int) + (m : Int) ∧
      (a : Int) + (m : Int) ≤ (s.length : Int) := by
    refine ⟨Int.ofNat_nonneg a, by omega, ?_⟩
    exact_mod_cast Int.ofNat_le.mpr h
  simp only [goSlice, if_pos hc]
  congr 1
  have : ((a : Int) + (m : Int)).toNat = a + m := by omega
  rw [this]
  have ha : ((a : Int)).toNat = a := by omega
  rw [ha, List.drop_take]
  have hm : a + m - a = m := by omega
  rw [hm]

/-- A bucket of the band table: an encoded hash key together with the list
of item keys sharing that encoded key (`bucket` in the source). -/
structure bucket where
  hashKey : GoStr
  keys : List String
deriving DecidableEq

/-- A band table (`hashTable` in the source): the sorted bucket sequence. -/
abbrev hashTable := List bucket

/-- A staging table (`initHashTable` in the source): Go map from encoded
hash key to item keys, modelled as an association list with distinct keys. -/
abbrev initHashTable := List (GoStr × List String)

/-- The forest index (`LshForest` in the source). -/
structure LshForest where
  k : Nat
  l : Nat
  hashValueSize : Nat
  initHashTables : List initHashTable
  hashTables : List hashTable
deriving DecidableEq

/-- `newLshForest`: panics (`none`) when `k < 0 || l < 0`, otherwise
allocates `l` empty staging tables and `l` empty band tables. -/
def newLshForest (k l : Int) (hashValueSize : Nat) : Option LshForest :=
  if k < 0 ∨ l < 0 then none
  else some
    { k := k.toNat
      l := l.toNat
      hashValueSize := hashValueSize
      initHashTables := List.replicate l.toNat []
      hashTables := List.replicate l.toNat [] }

/-- `NewLshForest64` uses 64-bit hash values. -/
def NewLshForest64 (k l : Int) : Option LshForest := newLshForest k l 8

/-- `NewLshForest32` uses 32-bit hash values. -/
def NewLshForest32 (k l : Int) : Option LshForest := newLshForest k l 4

/-- `NewLshForest16` uses 16-bit hash values. -/
def NewLshForest16 (k l : Int) : Option LshForest := newLshForest k l 2

/-- The default constructor aliases the 32-bit one. -/
def NewLshForest (k l : Int) : Option LshForest := NewLshForest32 k l

/-- Go map update performed by `Add` on one staging table: append the item
key to the entry for `hk`, creating a singleton entry when absent. -/
def updateInit (ht : initHashTable) (hk : GoStr) (key : String) : initHashTable :=
  match ht with
  | [] => [(hk, [key])]
  | (h, ks) :: rest =>
      if h = hk then (h, ks ++ [key]) :: rest
      else (h, ks) :: updateInit rest hk key

/-- Effectful map over a list in the `Option` monad; `none` models a panic
in any iteration of the corresponding Go loop. -/
def optionMapM {α β : Type} (g : α → Option β) : List α → Option (List β)
  | [] => some []
  | x :: xs => do
      let y ← g x
      let ys ← optionMapM g xs
      some (y :: ys)

/-- The hash keys `Hs` computed by `Add` (with `m = f.k`) and by `Query`
(with `m = K`): for each band `i < n`, encode `sig[i*f.k : i*f.k+m]`. -/
def genHs (f : LshForest) (sig : List Nat) (m : Int) (n : Nat) : Option (List GoStr) :=
  optionMapM
    (fun (i : Nat) => (goSlice sig ((i : Int) * (f.k : Int)) ((i : Int) * (f.k : Int) + m)).map
      (hashKeyFunc f.hashValueSize))
    (List.range n)

/-- `Add`: insert an item key with its signature into the staging tables,
one bucket append per band (the per-band goroutines join before returning,
and each touches only its own table, so the joined effect is this). A
too-short signature makes a slice expression panic (`none`). -/
def Add (f : LshForest) (key : String) (sig : List Nat) : Option LshForest := do
  let Hs ← genHs f sig (f.k : Int) f.l
  some { f with initHashTables :=
    (f.initHashTables.zip Hs).map (fun p => updateInit p.1 p.2 key) }

/-- Insert a bucket into a table sorted by `strLt` on the hash key. -/
def insertBucket (b : bucket) : hashTable → hashTable
  | [] => [b]
  | c :: rest =>
      if strLt b.hashKey c.hashKey then b :: c :: rest
      else c :: insertBucket b rest

/-- Sort a band table ascending by hash key (the effect of `sort.Sort` with
the `hashTable.Less` comparator; the multiset of buckets is preserved). -/
def sortHT : hashTable → hashTable
  | [] => []
  | b :: rest => insertBucket b (sortHT rest)

/-- One band of `Index`: append every staged bucket to the existing band
table, then sort the whole table by encoded hash key. -/
def indexBand (ht : hashTable) (iht : initHashTable) : hashTable :=
  sortHT (ht ++ iht.map (fun p => { hashKey := p.1, keys := p.2 }))

/-- `Index`: make all added keys searchable; every band is rebuilt from its
current band table plus its staged buckets, and staging is reset. -/
def Index (f : LshForest) : LshForest :=
  { f with
    hashTables := (f.hashTables.zip f.initHashTables).map (fun p => indexBand p.1 p.2)
    initHashTables := f.initHashTables.map (fun _ => []) }

/-- The loop of Go `sort.Search` on `[i, j)`; the structural fuel is an
upper bound on the interval width `j - i`, which strictly decreases on
every iteration of the Go loop. -/
def sortSearchGo (pred : Nat → Option Bool) : Nat → Nat → Nat → Option Nat
  | 0, i, _ => some i
  | fuel + 1, i, j =>
      if i < j then
        (pred ((i + j) / 2)).bind (fun b =>
          if b then sortSearchGo pred fuel i ((i + j) / 2)
          else sortSearchGo pred fuel ((i + j) / 2 + 1) j)
      else some i

/-- `sort.Search` from the Go standard library on the interval `[i, j)`,
with a predicate that may panic (`none`); returns the found index. -/
def sortSearchM (pred : Nat → Option Bool) (i j : Nat) : Option Nat :=
  sortSearchGo pred (j - i) i j

/-- The scan loop of `Query` over one band table: starting at index `j`,
collect the item keys of consecutive buckets whose hash-key prefix of
length `prefixSize` equals `hk`; the structural fuel bounds the number of
remaining buckets, which strictly decreases per iteration. -/
def scanRunGo (ht : hashTable) (prefixSize : Int) (hk : GoStr) :
    Nat → Nat → Option (List String)
  | 0, _ => some []
  | fuel + 1, j =>
      if hj : j < ht.length then
        (goSlice (ht.get ⟨j, hj⟩).hashKey 0 prefixSize).bind (fun p =>
          if p = hk then
            (scanRunGo ht prefixSize hk fuel (j + 1)).bind (fun rest =>
              some ((ht.get ⟨j, hj⟩).keys ++ rest))
          else some [])
      else some []

/-- The run scan entered at index `j` (its loop runs at most
`ht.length - j` iterations). -/
def scanRun (ht : hashTable) (prefixSize : Int) (hk : GoStr) (j : Nat) :
    Option (List String) :=
  scanRunGo ht prefixSize hk (ht.length - j) j

/-- One band of `Query`: binary-search the sorted band table for the first
bucket whose hash-key prefix is `≥ hk`, then scan the run of buckets whose
prefix equals `hk`. -/
def queryBand (ht : hashTable) (prefixSize : Int) (hk : GoStr) : Option (List String) :=
  (sortSearchM
    (fun x =>
      (ht[x]?).bind (fun b =>
        (goSlice b.hashKey 0 prefixSize).map (fun p => !strLt p hk)))
    0 ht.length).bind (fun kk =>
      if hkk : kk < ht.length then
        (goSlice (ht.get ⟨kk, hkk⟩).hashKey 0 prefixSize).bind (fun p =>
          if p = hk then scanRun ht prefixSize hk kk else some [])
      else some [])

/-- The streaming deduplication stage of `Query` (the `seens` map): emit
each key the first time it is seen. -/
def dedupAux (seen : List String) : List String → List String
  | [] => []
  | x :: xs => if x ∈ seen then dedupAux seen xs else x :: dedupAux (seen ++ [x]) xs

/-- Deduplicate a key stream, keeping first occurrences. -/
def dedup (xs : List String) : List String := dedupAux [] xs

/-- The body of `Query` after the `-1` defaults are resolved: `L < 0`
makes `make([]string, L)` panic; otherwise compute the per-band query
hash keys (slicing may panic), search the `L` band tables (indexing and
prefix slicing may panic), and deduplicate the streamed candidates. -/
def queryBody (f : LshForest) (sig : List Nat) (K L : Int) : Option (List String) :=
  if L < 0 then none
  else
    (genHs f sig K L.toNat).bind (fun Hs =>
      (optionMapM
        (fun (i : Nat) =>
          (f.hashTables[i]?).bind (fun ht =>
            (Hs[i]?).bind (fun hk =>
              queryBand ht ((f.hashValueSize : Int) * K) hk)))
        (List.range L.toNat)).bind (fun outs =>
        some (dedup outs.flatten)))

/-- `Query`: candidate item keys for a signature at query-time parameters
`K0`, `L0` (`-1` meaning the configured `k` resp. `l`). The per-band
searches are read-only and joined, so the candidate stream is their
concatenation in band order; `none` models a panic in any of them. -/
def Query (f : LshForest) (sig : List Nat) (K0 L0 : Int) : Option (List String) :=
  queryBody f sig (if K0 = -1 then (f.k : Int) else K0)
    (if L0 = -1 then (f.l : Int) else L0)

/-- The numerical-integration step shared by the probability capability. -/
def integrationPrecision : ℚ := 1 / 100

/-- `math.MaxFloat64`, the initial minimum in the optimiser scan. -/
def MaxFloat64 : ℚ := 2 ^ 1024 - 2 ^ 971

/-- Accumulator of the `OptimalKL` scan: the running minimum error and the
best parameters found so far (Go named return values start at zero). -/
structure OptState where
  minError : ℚ
  optK : Nat
  optL : Nat
  fp : ℚ
  fn : ℚ
deriving DecidableEq

/-- One iteration of the `OptimalKL` grid scan at the pair `(l, k)`. -/
def optStep (probFP probFN : Int → Int → Nat → Nat → ℚ → ℚ → ℚ)
    (x q : Int) (t : ℚ) (st : OptState) (p : Nat × Nat) : OptState :=
  let currFp := probFP x q p.1 p.2 t integrationPrecision
  let currFn := probFN x q p.1 p.2 t integrationPrecision
  let currErr := currFn + currFp
  if st.minError > currErr then
    { minError := currErr, optK := p.2, optL := p.1, fp := currFp, fn := currFn }
  else st

/-- The scan order of `OptimalKL`: `l` outermost ascending from 1 to
`lmax`, `k` innermost ascending from 1 to `kmax`. -/
def scanPairs (kmax lmax : Nat) : List (Nat × Nat) :=
  (List.range' 1 lmax).flatMap (fun l => (List.range' 1 kmax).map (fun k => (l, k)))

/-- `OptimalKL`: exhaustive grid scan over `1 ≤ l ≤ f.l`, `1 ≤ k ≤ f.k`
keeping the pair with strictly smaller combined error. The probability
capability is passed in, modelled from the spec as the supplied pure
functions `probFalsePositive`/`probFalseNegative` (not part of the given
source); floats are modelled as rationals. -/
def OptimalKL (probFP probFN : Int → Int → Nat → Nat → ℚ → ℚ → ℚ)
    (f : LshForest) (x q : Int) (t : ℚ) : Nat × Nat × ℚ × ℚ :=
  let st := (scanPairs f.k f.l).foldl (optStep probFP probFN x q t)
    { minError := MaxFloat64, optK := 0, optL := 0, fp := 0, fn := 0 }
  (st.optK, st.optL, st.fp, st.fn)

@[simp] theorem optionMapM_nil {α β : Type} (g : α → Option β) : optionMapM g [] = some [] := rfl

theorem optionMapM_cons {α β : Type} (g : α → Option β) (x : α) (xs : List α) :
    optionMapM g (x :: xs) =
      (g x).bind (fun y => (optionMapM g xs).bind (fun ys => some (y :: ys))) := rfl

theorem optionMapM_eq_some_of {α β : Type} (g : α → Option β) (h : α → β) :
    ∀ xs : List α, (∀ x ∈ xs, g x = some (h x)) → optionMapM g xs = some (xs.map h) := by
  intro xs
  induction xs with
  | nil => intro _; rfl
  | cons x xs ih =>
    intro hx
    have h1 : g x = some (h x) := hx x (by simp)
    have h2 := ih (fun y hy => hx y (by simp [hy]))
    rw [optionMapM_cons, h1, Option.some_bind, h2, Option.some_bind, List.map_cons]

theorem optionMapM_length {α β : Type} (g : α → Option β) :
    ∀ (xs : List α) (ys : List β), optionMapM g xs = some ys → ys.length = xs.length := by
  intro xs
  induction xs with
  | nil =>
    intro ys h
    rw [optionMapM_nil, Option.some.injEq] at h
    simp [← h]
  | cons x xs ih =>
    intro ys h
    rw [optionMapM_cons, Option.bind_eq_some] at h
    obtain ⟨y, hy, h⟩ := h
    rw [Option.bind_eq_some] at h
    obtain ⟨ys2, hys2, h⟩ := h
    rw [Option.some.injEq] at h
    subst h
    simp [ih ys2 hys2]

theorem optionMapM_mem_inv {α β : Type} (g : α → Option β) :
    ∀ (xs : List α) (ys : List β), optionMapM g xs = some ys →
      ∀ y ∈ ys, ∃ x ∈ xs, g x = some y := by
  intro xs
  induction xs with
  | nil =>
    intro ys h
    rw [optionMapM_nil, Option.some.injEq] at h
    subst h
    intro y hy
    simp at hy
  | cons x xs ih =>
    intro ys h
    rw [optionMapM_cons, Option.bind_eq_some] at h
    obtain ⟨y, hy, h⟩ := h
    rw [Option.bind_eq_some] at h
    obtain ⟨ys2, hys2, h⟩ := h
    rw [Option.some.injEq] at h
    subst h
    intro z hz
    rcases List.mem_cons.mp hz with rfl | hz2
    · exact ⟨x, by simp, hy⟩
    · obtain ⟨x2, hx2, hgx2⟩ := ih ys2 hys2 z hz2
      exact ⟨x2, by simp [hx2], hgx2⟩

theorem optionMapM_join_mem {α : Type} (g : α → Option (List String)) (P : α → String → Prop) :
    ∀ xs : List α,
      (∀ x ∈ xs, ∃ o, g x = some o ∧ ∀ key, key ∈ o ↔ P x key) →
      ∃ outs, optionMapM g xs = some outs ∧
        ∀ key, (key ∈ outs.flatten ↔ ∃ x ∈ xs, P x key) := by
  intro xs
  induction xs with
  | nil =>
    intro _
    exact ⟨[], rfl, by simp⟩
  | cons x xs ih =>
    intro hx
    obtain ⟨o, ho, hoiff⟩ := hx x (by simp)
    obtain ⟨outs, houts, hjoin⟩ := ih (fun y hy => hx y (by simp [hy]))
    refine ⟨o :: outs, by rw [optionMapM_cons, ho, Option.some_bind, houts, Option.some_bind], ?_⟩
    intro key
    simp only [List.flatten_cons, List.mem_append, List.mem_cons]
    rw [hoiff, hjoin]
    constructor
    · rintro (hp | ⟨y, hy, hp⟩)
      · exact ⟨x, Or.inl rfl, hp⟩
      · exact ⟨y, Or.inr hy, hp⟩
    · rintro ⟨y, (rfl | hy), hp⟩
      · exact Or.inl hp
      · exact Or.inr ⟨y, hy, hp⟩

theorem updateInit_self_mem (hk : GoStr) (key : String) :
    ∀ ht : initHashTable, ∃ ks, (hk, ks) ∈ updateInit ht hk key ∧ key ∈ ks := by
  intro ht
  induction ht with
  | nil => exact ⟨[key], by simp [updateInit], by simp⟩
  | cons p rest ih =>
    obtain ⟨h, ks⟩ := p
    by_cases he : h = hk
    · subst he
      exact ⟨ks ++ [key], by simp [updateInit], by simp⟩
    · obtain ⟨ks2, hmem, hkey⟩ := ih
      exact ⟨ks2, by simp [updateInit, he, hmem], hkey⟩

theorem updateInit_pres (P : GoStr → Prop) (hk : GoStr) (key : String) :
    ∀ ht : initHashTable, (∀ p ∈ ht, P p.1 ∧ p.2 ≠ []) → P hk →
      ∀ p ∈ updateInit ht hk key, P p.1 ∧ p.2 ≠ [] := by
  intro ht
  induction ht with
  | nil =>
    intro _ hPk p hp
    simp [updateInit] at hp
    subst hp
    exact ⟨hPk, by simp⟩
  | cons q rest ih =>
    intro hP hPk p hp
    obtain ⟨h, ks⟩ := q
    by_cases he : h = hk
    · simp only [updateInit, if_pos he] at hp
      rcases List.mem_cons.mp hp with rfl | hp2
      · exact ⟨(hP (h, ks) (by simp)).1, by simp⟩
      · exact hP p (by simp [hp2])
    · simp only [updateInit, if_neg he] at hp
      rcases List.mem_cons.mp hp with rfl | hp2
      · exact hP (h, ks) (by simp)
      · exact ih (fun r hr => hP r (by simp [hr])) hPk p hp2

/-- A band table is sorted ascending by hash key (non-strictly). -/
def tableSorted (ht : hashTable) : Prop :=
  List.Pairwise (fun a b => strLt b.hashKey a.hashKey = false) ht

theorem insertBucket_mem (b x : bucket) :
    ∀ ht : hashTable, x ∈ insertBucket b ht ↔ x = b ∨ x ∈ ht := by
  intro ht
  induction ht with
  | nil => simp [insertBucket]
  | cons c rest ih =>
    simp only [insertBucket]
    split_ifs with hbc
    · simp only [List.mem_cons]
    · simp only [List.mem_cons, ih]
      tauto

theorem insertBucket_sorted (b : bucket) :
    ∀ ht : hashTable, tableSorted ht → tableSorted (insertBucket b ht) := by
  intro ht
  induction ht with
  | nil =>
    intro _
    simp [insertBucket, tableSorted]
  | cons c rest ih =>
    intro hs
    rw [tableSorted, List.pairwise_cons] at hs
    obtain ⟨hc, hrest⟩ := hs
    simp only [insertBucket]
    split_ifs with hbc
    · refine List.Pairwise.cons ?_ (List.Pairwise.cons hc hrest)
      intro x hx
      rcases List.mem_cons.mp hx with rfl | hx2
      · exact strLt_asymm hbc
      · cases hxb : strLt x.hashKey b.hashKey with
        | false => rfl
        | true =>
          have h3 := strLt_trans _ _ _ hxb hbc
          rw [hc x hx2] at h3
          simp at h3
    · refine List.Pairwise.cons ?_ (ih hrest)
      intro x hx
      rcases (insertBucket_mem b x rest).mp hx with rfl | hx2
      · exact Bool.not_eq_true _ ▸ (by simpa using hbc)
      · exact hc x hx2

theorem sortHT_sorted : ∀ ht : hashTable, tableSorted (sortHT ht) := by
  intro ht
  induction ht with
  | nil => simp [sortHT, tableSorted]
  | cons b rest ih => exact insertBucket_sorted b _ ih

theorem sortHT_mem (x : bucket) : ∀ ht : hashTable, x ∈ sortHT ht ↔ x ∈ ht := by
  intro ht
  induction ht with
  | nil => simp [sortHT]
  | cons b rest ih =>
    simp only [sortHT, insertBucket_mem, List.mem_cons, ih]

theorem genHs_eq (f : LshForest) (sig : List Nat) (m n : Nat)
    (h : ∀ i, i < n → i * f.k + m ≤ sig.length) :
    genHs f sig (m : Int) n =
      some ((List.range n).map
        (fun i => hashKeyFunc f.hashValueSize ((sig.drop (i * f.k)).take m))) := by
  unfold genHs
  apply optionMapM_eq_some_of
  intro i hi
  have hmem := List.mem_range.mp hi
  have hcast : ((i : Int)) * ((f.k : Int)) = (((i * f.k : Nat)) : Int) := by push_cast; ring
  rw [hcast, goSlice_window (h i hmem)]
  rfl

theorem Add_def (f : LshForest) (key : String) (sig : List Nat) :
    Add f key sig = (genHs f sig (f.k : Int) f.l).bind (fun Hs =>
      some { f with initHashTables :=
        (f.initHashTables.zip Hs).map (fun p => updateInit p.1 p.2 key) }) := rfl

theorem Add_inv {f : LshForest} {key : String} {sig : List Nat} {g : LshForest}
    (h : Add f key sig = some g) :
    ∃ Hs, genHs f sig (f.k : Int) f.l = some Hs ∧
      g = { f with initHashTables :=
        (f.initHashTables.zip Hs).map (fun p => updateInit p.1 p.2 key) } := by
  rw [Add_def, Option.bind_eq_some] at h
  obtain ⟨Hs, h1, h2⟩ := h
  rw [Option.some.injEq] at h2
  exact ⟨Hs, h1, h2.symm⟩

theorem Add_some (f : LshForest) (key : String) (sig : List Nat) (Hs : List GoStr)
    (h : genHs f sig (f.k : Int) f.l = some Hs) :
    Add f key sig = some { f with initHashTables :=
      (f.initHashTables.zip Hs).map (fun p => updateInit p.1 p.2 key) } := by
  rw [Add_def, h, Option.some_bind]

theorem goSlice_length {s r : GoStr} {a b : Int} (h : goSlice s a b = some r) :
    r.length = b.toNat - a.toNat := by
  unfold goSlice at h
  split_ifs at h with hc
  rw [Option.some.injEq] at h
  subst h
  simp only [List.length_drop, List.length_take]
  omega

/-- All hash keys produced by `genHs` have the fixed width `w · m`. -/
theorem genHs_mem_length {f : LshForest} {sig : List Nat} {m : Int} {n : Nat}
    {Hs : List GoStr} (h : genHs f sig m n = some Hs) :
    ∀ x ∈ Hs, x.length = f.hashValueSize * m.toNat := by
  intro x hx
  unfold genHs at h
  obtain ⟨i, _, hgi⟩ := optionMapM_mem_inv _ _ _ h x hx
  rw [Option.map_eq_some'] at hgi
  obtain ⟨s, hs, rfl⟩ := hgi
  have hlen := goSlice_length hs
  rw [hashKeyFunc_length, hlen]
  congr 1
  unfold goSlice at hs
  split_ifs at hs with hc
  omega

theorem genHs_length {f : LshForest} {sig : List Nat} {m : Int} {n : Nat}
    {Hs : List GoStr} (h : genHs f sig m n = some Hs) : Hs.length = n := by
  unfold genHs at h
  have := optionMapM_length _ _ _ h
  simpa using this

/-- The structural invariant of the forest: `l` staging and `l` band
tables; band tables sorted; every stored hash key has the full width
`hashValueSize · k`; every bucket and staging entry holds at least one
item key. -/
def Inv (f : LshForest) : Prop :=
  f.initHashTables.length = f.l ∧
  f.hashTables.length = f.l ∧
  (∀ ht ∈ f.hashTables, tableSorted ht ∧
    ∀ b ∈ ht, b.hashKey.length = f.hashValueSize * f.k ∧ b.keys ≠ []) ∧
  (∀ iht ∈ f.initHashTables, ∀ p ∈ iht, p.1.length = f.hashValueSize * f.k ∧ p.2 ≠ [])

/-- Forest states reachable through the public constructor and the
`Add`/`Index` operations. -/
inductive Reached : LshForest → Prop
  | init (k l : Int) (hvs : Nat) (f : LshForest) (h : newLshForest k l hvs = some f) :
      Reached f
  | add (f : LshForest) (key : String) (sig : List Nat) (g : LshForest)
      (hf : Reached f) (h : Add f key sig = some g) : Reached g
  | idx (f : LshForest) (hf : Reached f) : Reached (Index f)

theorem inv_new {k l : Int} {hvs : Nat} {f : LshForest}
    (h : newLshForest k l hvs = some f) : Inv f := by
  unfold newLshForest at h
  split_ifs at h with hc
  rw [Option.some.injEq] at h
  subst h
  refine ⟨by simp, by simp, ?_, ?_⟩
  · intro ht hht
    rw [List.eq_of_mem_replicate hht]
    exact ⟨List.Pairwise.nil, by simp⟩
  · intro iht hiht p hp
    rw [List.eq_of_mem_replicate hiht] at hp
    simp at hp

theorem inv_add {f g : LshForest} {key : String} {sig : List Nat}
    (hI : Inv f) (h : Add f key sig = some g) : Inv g := by
  obtain ⟨Hs, hHs, hg⟩ := Add_inv h
  subst hg
  obtain ⟨hil, htl, hts, his⟩ := hI
  have hHsl : Hs.length = f.l := genHs_length hHs
  have hHsw : ∀ x ∈ Hs, x.length = f.hashValueSize * f.k := by
    intro x hx
    have := genHs_mem_length hHs x hx
    have hk : ((f.k : Int)).toNat = f.k := by omega
    rwa [hk] at this
  refine ⟨?_, htl, hts, ?_⟩
  · simp [hil, hHsl]
  · intro iht hiht p hp
    rw [List.mem_map] at hiht
    obtain ⟨q, hq, rfl⟩ := hiht
    have hq2 := List.of_mem_zip hq
    exact updateInit_pres (fun hk => hk.length = f.hashValueSize * f.k) q.2 key q.1
      (his q.1 hq2.1) (hHsw q.2 hq2.2) p hp

theorem inv_index {f : LshForest} (hI : Inv f) : Inv (Index f) := by
  obtain ⟨hil, htl, hts, his⟩ := hI
  refine ⟨by simp [Index, hil], by simp [Index, htl, hil], ?_, ?_⟩
  · intro ht hht
    simp only [Index, List.mem_map] at hht
    obtain ⟨q, hq, rfl⟩ := hht
    have hq2 := List.of_mem_zip hq
    refine ⟨sortHT_sorted _, ?_⟩
    intro b hb
    rw [indexBand, sortHT_mem, List.mem_append] at hb
    rcases hb with hb | hb
    · exact (hts q.1 hq2.1).2 b hb
    · rw [List.mem_map] at hb
      obtain ⟨p, hp, rfl⟩ := hb
      exact his q.2 hq2.2 p hp
  · intro iht hiht p hp
    simp only [Index, List.mem_map] at hiht
    obtain ⟨q, hq, rfl⟩ := hiht
    simp at hp

theorem reached_inv {f : LshForest} (h : Reached f) : Inv f := by
  induction h with
  | init k l hvs f h => exact inv_new h
  | add f key sig g hf h ih => exact inv_add ih h
  | idx f hf ih => exact inv_index ih

theorem Add_fields {f g : LshForest} {key : String} {sig : List Nat}
    (h : Add f key sig = some g) :
    g.k = f.k ∧ g.l = f.l ∧ g.hashValueSize = f.hashValueSize ∧
      g.hashTables = f.hashTables := by
  obtain ⟨Hs, _, rfl⟩ := Add_inv h
  exact ⟨rfl, rfl, rfl, rfl⟩

theorem Index_fields (f : LshForest) :
    (Index f).k = f.k ∧ (Index f).l = f.l ∧
      (Index f).hashValueSize = f.hashValueSize := ⟨rfl, rfl, rfl⟩

/-- Evolution of a forest state by any further `Add` and `Index` calls. -/
inductive Evolves : LshForest → LshForest → Prop
  | refl (f : LshForest) : Evolves f f
  | add (f g h : LshForest) (key : String) (sig : List Nat)
      (he : Evolves f g) (ha : Add g key sig = some h) : Evolves f h
  | idx (f g : LshForest) (he : Evolves f g) : Evolves f (Index g)

theorem evolves_reached {f g : LshForest} (hr : Reached f) (he : Evolves f g) :
    Reached g := by
  induction he with
  | refl => exact hr
  | add g h key sig he ha ih => exact Reached.add g key sig h ih ha
  | idx g he ih => exact Reached.idx g ih

theorem evolves_fields {f g : LshForest} (he : Evolves f g) :
    g.k = f.k ∧ g.l = f.l ∧ g.hashValueSize = f.hashValueSize := by
  induction he with
  | refl => exact ⟨rfl, rfl, rfl⟩
  | add g h key sig he ha ih =>
    obtain ⟨h1, h2, h3, _⟩ := Add_fields ha
    exact ⟨h1.trans ih.1, h2.trans ih.2.1, h3.trans ih.2.2⟩
  | idx g he ih => exact ih

/-- Every bucket of every band table survives any later `Add`/`Index`
sequence, at the same band position. -/
theorem evolves_table_mem {f g : LshForest} (hr : Reached f) (he : Evolves f g) :
    ∀ i (hi : i < f.hashTables.length), ∃ hig : i < g.hashTables.length,
      ∀ b ∈ f.hashTables.get ⟨i, hi⟩, b ∈ g.hashTables.get ⟨i, hig⟩ := by
  induction he with
  | refl => exact fun i hi => ⟨hi, fun b hb => hb⟩
  | add g h key sig he ha ih =>
    intro i hi
    obtain ⟨hig, hmem⟩ := ih i hi
    obtain ⟨Hs, _, rfl⟩ := Add_inv ha
    exact ⟨hig, hmem⟩
  | idx g he ih =>
    intro i hi
    obtain ⟨hig, hmem⟩ := ih i hi
    have hIg := reached_inv (evolves_reached hr he)
    obtain ⟨hil, htl, _, _⟩ := hIg
    have hig2 : i < (Index g).hashTables.length := by
      simp only [Index, List.length_map, List.length_zip]
      omega
    refine ⟨hig2, ?_⟩
    intro b hb
    have hzl : i < (g.hashTables.zip g.initHashTables).length := by
      simp only [List.length_zip]
      omega
    simp only [Index, List.get_eq_getElem, List.getElem_map, List.getElem_zip]
    rw [indexBand, sortHT_mem, List.mem_append]
    left
    have := hmem b hb
    simpa using this

theorem dedupAux_mem (key : String) : ∀ (xs seen : List String),
    key ∈ dedupAux seen xs ↔ key ∈ xs ∧ key ∉ seen := by
  intro xs
  induction xs with
  | nil => intro seen; simp [dedupAux]
  | cons x xs ih =>
    intro seen
    simp only [dedupAux]
    split_ifs with hx
    · rw [ih]
      constructor
      · rintro ⟨h1, h2⟩
        exact ⟨List.mem_cons_of_mem x h1, h2⟩
      · rintro ⟨h1, h2⟩
        rcases List.mem_cons.mp h1 with rfl | h1b
        · exact absurd hx h2
        · exact ⟨h1b, h2⟩
    · rw [List.mem_cons, ih]
      constructor
      · rintro (rfl | ⟨h1, h2⟩)
        · exact ⟨List.mem_cons_self _ _, hx⟩
        · refine ⟨List.mem_cons_of_mem x h1, fun hk => h2 ?_⟩
          simp [hk]
      · rintro ⟨h1, h2⟩
        by_cases hkx : key = x
        · exact Or.inl hkx
        · rcases List.mem_cons.mp h1 with rfl | h1b
          · exact absurd rfl hkx
          · refine Or.inr ⟨h1b, fun hk => ?_⟩
            rw [List.mem_append] at hk
            rcases hk with hk | hk
            · exact h2 hk
            · simp at hk
              exact hkx hk


theorem dedup_mem (key : String) (xs : List String) : key ∈ dedup xs ↔ key ∈ xs := by
  simp [dedup, dedupAux_mem]

theorem dedupAux_nodup : ∀ (xs seen : List String), (dedupAux seen xs).Nodup := by
  intro xs
  induction xs with
  | nil => intro seen; simp [dedupAux]
  | cons x xs ih =>
    intro seen
    simp only [dedupAux]
    split_ifs with hx
    · exact ih seen
    · refine List.Nodup.cons ?_ (ih (seen ++ [x]))
      intro hmem
      have := (dedupAux_mem x xs (seen ++ [x])).mp hmem
      exact this.2 (by simp)

theorem dedup_nodup (xs : List String) : (dedup xs).Nodup := dedupAux_nodup xs []

/-- Correctness of the Go binary-search loop with sufficient fuel on a
monotone panic-free predicate: it returns the least index of `[i, j)`
satisfying the predicate (or `j`). -/
theorem sortSearchGo_spec (pred : Nat → Option Bool) (b : Nat → Bool) (n : Nat)
    (hp : ∀ x, x < n → pred x = some (b x))
    (hmono : ∀ x y, x ≤ y → y < n → b x = true → b y = true) :
    ∀ d i j, j - i ≤ d → i ≤ j → j ≤ n →
      ∃ r, sortSearchGo pred d i j = some r ∧ i ≤ r ∧ r ≤ j ∧
        (∀ x, i ≤ x → x < r → b x = false) ∧ (r < j → b r = true) := by
  intro d
  induction d with
  | zero =>
    intro i j hd hij hjn
    refine ⟨i, rfl, le_refl i, hij, ?_, ?_⟩
    · intro x hx1 hx2
      omega
    · intro hij2
      omega
  | succ d ih =>
    intro i j hd hij hjn
    by_cases hlt : i < j
    · have heq : sortSearchGo pred (d + 1) i j =
          (pred ((i + j) / 2)).bind (fun bb =>
            if bb then sortSearchGo pred d i ((i + j) / 2)
            else sortSearchGo pred d ((i + j) / 2 + 1) j) := by
        rw [sortSearchGo, if_pos hlt]
      have hm1 : i ≤ (i + j) / 2 := by omega
      have hm2 : (i + j) / 2 < j := by omega
      have hmn : (i + j) / 2 < n := by omega
      rw [hp _ hmn, Option.some_bind] at heq
      cases hbm : b ((i + j) / 2) with
      | true =>
        rw [hbm, if_pos rfl] at heq
        obtain ⟨r, hr, hir, hrm, hfalse, htrue⟩ :=
          ih i ((i + j) / 2) (by omega) hm1 (by omega)
        refine ⟨r, heq.trans hr, hir, by omega, hfalse, ?_⟩
        intro _
        rcases Nat.lt_or_ge r ((i + j) / 2) with hcase | hcase
        · exact htrue hcase
        · have : r = (i + j) / 2 := by omega
          rw [this]
          exact hbm
      | false =>
        rw [hbm, if_neg (by simp)] at heq
        obtain ⟨r, hr, hir, hrj, hfalse, htrue⟩ :=
          ih ((i + j) / 2 + 1) j (by omega) (by omega) hjn
        refine ⟨r, heq.trans hr, by omega, hrj, ?_, htrue⟩
        intro x hx1 hx2
        rcases Nat.lt_or_ge x ((i + j) / 2 + 1) with hcase | hcase
        · cases hbx : b x with
          | false => rfl
          | true =>
            have := hmono x ((i + j) / 2) (by omega) hmn hbx
            rw [hbm] at this
            exact this.symm
        · exact hfalse x hcase hx2
    · refine ⟨i, ?_, le_refl i, hij, ?_, ?_⟩
      · rw [sortSearchGo, if_neg hlt]
      · intro x hx1 hx2
        omega
      · intro hij2
        omega

/-- Correctness of `sort.Search` itself. -/
theorem sortSearchM_spec (pred : Nat → Option Bool) (b : Nat → Bool) (n : Nat)
    (hp : ∀ x, x < n → pred x = some (b x))
    (hmono : ∀ x y, x ≤ y → y < n → b x = true → b y = true) :
    ∀ d i j, j - i ≤ d → i ≤ j → j ≤ n →
      ∃ r, sortSearchM pred i j = some r ∧ i ≤ r ∧ r ≤ j ∧
        (∀ x, i ≤ x → x < r → b x = false) ∧ (r < j → b r = true) := by
  intro d i j hd hij hjn
  unfold sortSearchM
  exact sortSearchGo_spec pred b n hp hmono (j - i) i j (le_refl _) hij hjn

/-- Correctness of the run-scanning loop of `Query` with sufficient fuel:
starting at `j`, it collects exactly the keys of the buckets in the
maximal contiguous run from `j` whose hash-key prefix equals `hk`. -/
theorem scanRunGo_spec (ht : hashTable) (p : Nat) (hk : GoStr)
    (hlen : ∀ b ∈ ht, p ≤ b.hashKey.length) :
    ∀ d j, ht.length - j ≤ d → j ≤ ht.length →
      ∃ out, scanRunGo ht (p : Int) hk d j = some out ∧
        ∀ key, key ∈ out ↔ ∃ (x : Nat) (hx : x < ht.length), j ≤ x ∧
          (∀ (y : Nat) (hy : y < ht.length), j ≤ y → y ≤ x →
            (ht.get ⟨y, hy⟩).hashKey.take p = hk) ∧
          key ∈ (ht.get ⟨x, hx⟩).keys := by
  intro d
  induction d with
  | zero =>
    intro j hd hj
    refine ⟨[], rfl, ?_⟩
    intro key
    simp only [List.not_mem_nil, false_iff]
    rintro ⟨x, hx, hjx, -, -⟩
    omega
  | succ d ih =>
    intro j hd hj
    by_cases hlt : j < ht.length
    · have heq : scanRunGo ht (p : Int) hk (d + 1) j =
          (goSlice (ht.get ⟨j, hlt⟩).hashKey 0 (p : Int)).bind (fun q =>
            if q = hk then
              (scanRunGo ht (p : Int) hk d (j + 1)).bind (fun rest =>
                some ((ht.get ⟨j, hlt⟩).keys ++ rest))
            else some []) := by
        rw [scanRunGo, dif_pos hlt]
      rw [goSlice_take (hlen _ (List.get_mem ht j hlt)), Option.some_bind] at heq
      by_cases hpk : (ht.get ⟨j, hlt⟩).hashKey.take p = hk
      · rw [if_pos hpk] at heq
        obtain ⟨rest, hrest, hiff⟩ := ih (j + 1) (by omega) (by omega)
        rw [hrest, Option.some_bind] at heq
        refine ⟨(ht.get ⟨j, hlt⟩).keys ++ rest, heq, ?_⟩
        intro key
        rw [List.mem_append, hiff]
        constructor
        · rintro (hkey | ⟨x, hx, hjx, hall, hkey⟩)
          · refine ⟨j, hlt, le_refl j, ?_, hkey⟩
            intro y hy hy1 hy2
            have : y = j := by omega
            subst this
            exact hpk
          · refine ⟨x, hx, by omega, ?_, hkey⟩
            intro y hy hy1 hy2
            rcases Nat.eq_or_lt_of_le hy1 with rfl | hy3
            · exact hpk
            · exact hall y hy (by omega) hy2
        · rintro ⟨x, hx, hjx, hall, hkey⟩
          rcases Nat.eq_or_lt_of_le hjx with rfl | hjx2
          · exact Or.inl hkey
          · refine Or.inr ⟨x, hx, by omega, ?_, hkey⟩
            intro y hy hy1 hy2
            exact hall y hy (by omega) hy2
      · rw [if_neg hpk] at heq
        refine ⟨[], heq, ?_⟩
        intro key
        simp only [List.not_mem_nil, false_iff]
        rintro ⟨x, hx, hjx, hall, -⟩
        exact hpk (hall j hlt (le_refl j) hjx)
    · refine ⟨[], ?_, ?_⟩
      · rw [scanRunGo, dif_neg hlt]
      · intro key
        simp only [List.not_mem_nil, false_iff]
        rintro ⟨x, hx, hjx, -, -⟩
        omega

/-- Correctness of the run scan entered at index `j`. -/
theorem scanRun_spec (ht : hashTable) (p : Nat) (hk : GoStr)
    (hlen : ∀ b ∈ ht, p ≤ b.hashKey.length) :
    ∀ d j, ht.length - j ≤ d → j ≤ ht.length →
      ∃ out, scanRun ht (p : Int) hk j = some out ∧
        ∀ key, key ∈ out ↔ ∃ (x : Nat) (hx : x < ht.length), j ≤ x ∧
          (∀ (y : Nat) (hy : y < ht.length), j ≤ y → y ≤ x →
            (ht.get ⟨y, hy⟩).hashKey.take p = hk) ∧
          key ∈ (ht.get ⟨x, hx⟩).keys := by
  intro d j hd hj
  unfold scanRun
  exact scanRunGo_spec ht p hk hlen (ht.length - j) j (le_refl _) hj

/-- In a sorted table, hash-key prefixes are monotone in the index. -/
theorem tableSorted_take_le {ht : hashTable} (hsort : tableSorted ht) (p : Nat)
    {x y : Nat} (hx : x < ht.length) (hy : y < ht.length) (hxy : x ≤ y) :
    strLt ((ht.get ⟨y, hy⟩).hashKey.take p) ((ht.get ⟨x, hx⟩).hashKey.take p) = false := by
  rcases Nat.eq_or_lt_of_le hxy with rfl | hlt
  · exact strLt_irrefl _
  · have hpair := List.pairwise_iff_getElem.mp hsort x y hx hy hlt
    have := strLe_take (p := p) hpair
    simpa [List.get_eq_getElem] using this

/-- Correctness of one band search of `Query`: on a sorted band table
whose hash keys are long enough, it succeeds and returns exactly the item
keys of the buckets whose hash-key prefix of length `p` equals `hk`. -/
theorem queryBand_spec (ht : hashTable) (p : Nat) (hk : GoStr)
    (hsort : tableSorted ht) (hlen : ∀ b ∈ ht, p ≤ b.hashKey.length) :
    ∃ out, queryBand ht (p : Int) hk = some out ∧
      ∀ key, key ∈ out ↔ ∃ b ∈ ht, b.hashKey.take p = hk ∧ key ∈ b.keys := by
  classical
  set bfun : Nat → Bool := fun x =>
    if hx : x < ht.length then !strLt ((ht.get ⟨x, hx⟩).hashKey.take p) hk else false
    with hbfun
  have hp : ∀ x, x < ht.length →
      ((ht[x]?).bind (fun b =>
        (goSlice b.hashKey 0 (p : Int)).map (fun q => !strLt q hk))) = some (bfun x) := by
    intro x hx
    rw [List.getElem?_eq_getElem hx, Option.some_bind,
      goSlice_take (hlen _ (List.getElem_mem hx)), Option.map_some']
    simp only [hbfun]
    rw [dif_pos hx]
    simp [List.get_eq_getElem]
  have hmono : ∀ x y, x ≤ y → y < ht.length → bfun x = true → bfun y = true := by
    intro x y hxy hy hbx
    have hx : x < ht.length := by omega
    simp only [hbfun] at hbx ⊢
    rw [dif_pos hx] at hbx
    rw [dif_pos hy]
    rw [Bool.not_eq_true'] at hbx ⊢
    have hstep := tableSorted_take_le hsort p hx hy hxy
    exact strLe_trans hbx hstep
  obtain ⟨r, hsr, hr0, hrn, hfalse, htrue⟩ :=
    sortSearchM_spec _ bfun ht.length hp hmono ht.length 0 ht.length
      (by omega) (by omega) (le_refl _)
  unfold queryBand
  rw [hsr, Option.some_bind]
  by_cases hrlt : r < ht.length
  · rw [dif_pos hrlt, goSlice_take (hlen _ (List.get_mem ht r hrlt)), Option.some_bind]
    have hbr : bfun r = true := htrue hrlt
    simp only [hbfun] at hbr
    rw [dif_pos hrlt, Bool.not_eq_true'] at hbr
    by_cases hpr : (ht.get ⟨r, hrlt⟩).hashKey.take p = hk
    · rw [if_pos hpr]
      obtain ⟨out, hout, hiff⟩ :=
        scanRun_spec ht p hk hlen ht.length r (by omega) (by omega)
      refine ⟨out, hout, ?_⟩
      intro key
      rw [hiff]
      constructor
      · rintro ⟨x, hx, hrx, hall, hkey⟩
        exact ⟨ht.get ⟨x, hx⟩, List.get_mem ht x hx, hall x hx hrx (le_refl x), hkey⟩
      · rintro ⟨b, hb, hbk, hkey⟩
        obtain ⟨x0, hget⟩ := List.mem_iff_get.mp hb
        obtain ⟨x, hx⟩ := x0
        refine ⟨x, hx, ?_, ?_, by rw [hget]; exact hkey⟩
        · by_contra hxr
          push_neg at hxr
          have := hfalse x (by omega) hxr
          simp only [hbfun] at this
          rw [dif_pos hx, Bool.not_eq_false'] at this
          rw [hget, hbk] at this
          rw [strLt_irrefl] at this
          exact Bool.false_ne_true this
        · intro y hy hy1 hy2
          have hx0k : (ht.get ⟨x, hx⟩).hashKey.take p = hk := by rw [hget]; exact hbk
          have h1 : strLt ((ht.get ⟨y, hy⟩).hashKey.take p) hk = false := by
            have := tableSorted_take_le hsort p hrlt hy hy1
            rw [hpr] at this
            exact this
          have h2 : strLt hk ((ht.get ⟨y, hy⟩).hashKey.take p) = false := by
            have := tableSorted_take_le hsort p hy hx hy2
            rw [hx0k] at this
            exact this
          exact strLt_antisymm h1 h2
    · rw [if_neg hpr]
      refine ⟨[], rfl, ?_⟩
      intro key
      simp only [List.not_mem_nil, false_iff]
      rintro ⟨b, hb, hbk, -⟩
      obtain ⟨x0, hget⟩ := List.mem_iff_get.mp hb
      obtain ⟨x, hx⟩ := x0
      have hx0k : (ht.get ⟨x, hx⟩).hashKey.take p = hk := by rw [hget]; exact hbk
      have hrx : r ≤ x := by
        by_contra hxr
        push_neg at hxr
        have := hfalse x (by omega) hxr
        simp only [hbfun] at this
        rw [dif_pos hx, Bool.not_eq_false'] at this
        rw [hx0k, strLt_irrefl] at this
        exact Bool.false_ne_true this
      have h2 : strLt hk ((ht.get ⟨r, hrlt⟩).hashKey.take p) = false := by
        have := tableSorted_take_le hsort p hrlt hx hrx
        rw [hx0k] at this
        exact this
      exact hpr (strLt_antisymm hbr h2)
  · rw [dif_neg hrlt]
    refine ⟨[], rfl, ?_⟩
    intro key
    simp only [List.not_mem_nil, false_iff]
    rintro ⟨b, hb, hbk, -⟩
    obtain ⟨x0, hget⟩ := List.mem_iff_get.mp hb
    obtain ⟨x, hx⟩ := x0
    have hx0k : (ht.get ⟨x, hx⟩).hashKey.take p = hk := by rw [hget]; exact hbk
    have := hfalse x (by omega) (by omega)
    simp only [hbfun] at this
    rw [dif_pos hx, Bool.not_eq_false'] at this
    rw [hx0k, strLt_irrefl] at this
    exact Bool.false_ne_true this

/-- Correctness of the query body on a well-formed forest: it succeeds
and returns a duplicate-free list containing exactly the item keys stored
in some band `i < L` under a bucket whose hash-key prefix of width
`hashValueSize · K` equals the encoded band-`i` query window. -/
theorem queryBody_spec (f : LshForest) (sig : List Nat) (K L : Nat)
    (hInv : Inv f) (hKk : K ≤ f.k) (hL : L ≤ f.l)
    (hsig : ∀ i, i < L → i * f.k + K ≤ sig.length) :
    ∃ out, queryBody f sig (K : Int) (L : Int) = some out ∧ out.Nodup ∧
      ∀ key, key ∈ out ↔ ∃ (i : Nat) (hi : i < L) (hi2 : i < f.hashTables.length),
        ∃ b ∈ f.hashTables.get ⟨i, hi2⟩,
          b.hashKey.take (f.hashValueSize * K) =
            hashKeyFunc f.hashValueSize ((sig.drop (i * f.k)).take K) ∧
          key ∈ b.keys := by
  obtain ⟨hil, htl, hts, -⟩ := hInv
  have hL0 : ¬ ((L : Int) < 0) := by omega
  unfold queryBody
  rw [if_neg hL0, show ((L : Int)).toNat = L from by omega, genHs_eq f sig K L hsig,
    Option.some_bind]
  have hcast : (f.hashValueSize : Int) * (K : Int) = ((f.hashValueSize * K : Nat) : Int) := by
    push_cast
    ring
  have hband : ∀ i ∈ List.range L, ∃ o,
      ((f.hashTables[i]?).bind (fun ht =>
        (((List.range L).map
            (fun i => hashKeyFunc f.hashValueSize ((sig.drop (i * f.k)).take K)))[i]?).bind
          (fun hk => queryBand ht ((f.hashValueSize : Int) * (K : Int)) hk))) = some o ∧
      ∀ key, key ∈ o ↔ ∃ (hi2 : i < f.hashTables.length),
        ∃ b ∈ f.hashTables.get ⟨i, hi2⟩,
          b.hashKey.take (f.hashValueSize * K) =
            hashKeyFunc f.hashValueSize ((sig.drop (i * f.k)).take K) ∧
          key ∈ b.keys := by
    intro i hi
    have hiL : i < L := List.mem_range.mp hi
    have hi2 : i < f.hashTables.length := by omega
    have hmap : ((List.range L).map
        (fun i => hashKeyFunc f.hashValueSize ((sig.drop (i * f.k)).take K)))[i]? =
        some (hashKeyFunc f.hashValueSize ((sig.drop (i * f.k)).take K)) := by
      rw [List.getElem?_map, List.getElem?_range hiL, Option.map_some']
    rw [List.getElem?_eq_getElem hi2, Option.some_bind, hmap, Option.some_bind, hcast]
    have hsorted : tableSorted (f.hashTables.get ⟨i, hi2⟩) :=
      (hts _ (List.get_mem f.hashTables i hi2)).1
    have hlenb : ∀ b ∈ f.hashTables.get ⟨i, hi2⟩,
        f.hashValueSize * K ≤ b.hashKey.length := by
      intro b hb
      rw [((hts _ (List.get_mem f.hashTables i hi2)).2 b hb).1]
      exact Nat.mul_le_mul_left _ hKk
    obtain ⟨o, ho, hoiff⟩ := queryBand_spec (f.hashTables.get ⟨i, hi2⟩)
      (f.hashValueSize * K) (hashKeyFunc f.hashValueSize ((sig.drop (i * f.k)).take K))
      hsorted hlenb
    refine ⟨o, ho, ?_⟩
    intro key
    rw [hoiff]
    constructor
    · rintro ⟨b, hb, hbk, hkey⟩
      exact ⟨hi2, b, hb, hbk, hkey⟩
    · rintro ⟨hi3, b, hb, hbk, hkey⟩
      exact ⟨b, hb, hbk, hkey⟩
  obtain ⟨outs, houts, hjoin⟩ := optionMapM_join_mem _ _ (List.range L) hband
  rw [houts, Option.some_bind]
  refine ⟨dedup outs.flatten, rfl, dedup_nodup _, ?_⟩
  intro key
  rw [dedup_mem, hjoin]
  constructor
  · rintro ⟨i, hi, hi2, hrest⟩
    exact ⟨i, List.mem_range.mp hi, hi2, hrest⟩
  · rintro ⟨i, hi, hi2, hrest⟩
    exact ⟨i, List.mem_range.mpr hi, hi2, hrest⟩

/-- `Query` at non-negative parameters runs the query body directly. -/
theorem Query_natCast (f : LshForest) (sig : List Nat) (K L : Nat) :
    Query f sig (K : Int) (L : Int) = queryBody f sig (K : Int) (L : Int) := by
  unfold Query
  rw [if_neg (by omega : ¬ ((K : Int) = -1)), if_neg (by omega : ¬ ((L : Int) = -1))]

/-- `Query` at the sentinel `-1, -1` uses the configured `k` and `l`. -/
theorem Query_default (f : LshForest) (sig : List Nat) :
    Query f sig (-1) (-1) = queryBody f sig (f.k : Int) (f.l : Int) := by
  unfold Query
  rw [if_pos rfl, if_pos rfl]

/-- The combined error of the pair `(l, k)` as computed by the scan. -/
def optErrOf (probFP probFN : Int → Int → Nat → Nat → ℚ → ℚ → ℚ)
    (x q : Int) (t : ℚ) (p : Nat × Nat) : ℚ :=
  probFN x q p.1 p.2 t integrationPrecision + probFP x q p.1 p.2 t integrationPrecision

/-- The accumulator state after an update at the pair `(l, k)`. -/
def stOf (probFP probFN : Int → Int → Nat → Nat → ℚ → ℚ → ℚ)
    (x q : Int) (t : ℚ) (p : Nat × Nat) : OptState :=
  { minError := optErrOf probFP probFN x q t p
    optK := p.2
    optL := p.1
    fp := probFP x q p.1 p.2 t integrationPrecision
    fn := probFN x q p.1 p.2 t integrationPrecision }

theorem optStep_eq (probFP probFN : Int → Int → Nat → Nat → ℚ → ℚ → ℚ)
    (x q : Int) (t : ℚ) (st : OptState) (p : Nat × Nat) :
    optStep probFP probFN x q t st p =
      if optErrOf probFP probFN x q t p < st.minError then
        stOf probFP probFN x q t p
      else st := rfl

/-- Characterisation of the grid-scan fold: either no pair beat the
initial minimum and the state is unchanged, or the final state is the
update at the first pair achieving the minimum scanned error. -/
theorem foldl_optStep_char (probFP probFN : Int → Int → Nat → Nat → ℚ → ℚ → ℚ)
    (x q : Int) (t : ℚ) :
    ∀ (ps : List (Nat × Nat)) (s : OptState),
      (ps.foldl (optStep probFP probFN x q t) s = s ∧
        ∀ p ∈ ps, s.minError ≤ optErrOf probFP probFN x q t p) ∨
      (∃ l₁ p l₂, ps = l₁ ++ p :: l₂ ∧
        ps.foldl (optStep probFP probFN x q t) s = stOf probFP probFN x q t p ∧
        optErrOf probFP probFN x q t p < s.minError ∧
        (∀ r ∈ l₁, optErrOf probFP probFN x q t p < optErrOf probFP probFN x q t r) ∧
        (∀ r ∈ l₂, optErrOf probFP probFN x q t p ≤ optErrOf probFP probFN x q t r)) := by
  intro ps
  induction ps with
  | nil =>
    intro s
    left
    exact ⟨rfl, by simp⟩
  | cons p0 rest ih =>
    intro s
    rw [List.foldl_cons]
    by_cases hlt : optErrOf probFP probFN x q t p0 < s.minError
    · have hstep : optStep probFP probFN x q t s p0 = stOf probFP probFN x q t p0 := by
        rw [optStep_eq, if_pos hlt]
      rw [hstep]
      rcases ih (stOf probFP probFN x q t p0) with ⟨heq, hall⟩ |
        ⟨l₁, p, l₂, hsplit, heq, hlt2, hl1, hl2⟩
      · right
        refine ⟨[], p0, rest, rfl, heq, hlt, by simp, ?_⟩
        intro r hr
        exact hall r hr
      · right
        refine ⟨p0 :: l₁, p, l₂, by rw [hsplit, List.cons_append], heq, lt_trans hlt2 hlt, ?_, hl2⟩
        intro r hr
        rcases List.mem_cons.mp hr with rfl | hr2
        · exact hlt2
        · exact hl1 r hr2
    · have hstep : optStep probFP probFN x q t s p0 = s := by
        rw [optStep_eq, if_neg hlt]
      rw [hstep]
      rcases ih s with ⟨heq, hall⟩ | ⟨l₁, p, l₂, hsplit, heq, hlt2, hl1, hl2⟩
      · left
        refine ⟨heq, ?_⟩
        intro r hr
        rcases List.mem_cons.mp hr with rfl | hr2
        · exact not_lt.mp hlt
        · exact hall r hr2
      · right
        refine ⟨p0 :: l₁, p, l₂, by rw [hsplit, List.cons_append], heq, hlt2, ?_, hl2⟩
        intro r hr
        rcases List.mem_cons.mp hr with rfl | hr2
        · exact lt_of_lt_of_le hlt2 (not_lt.mp hlt)
        · exact hl1 r hr2

theorem scanPairs_mem (kmax lmax : Nat) (p : Nat × Nat) :
    p ∈ scanPairs kmax lmax ↔ (1 ≤ p.1 ∧ p.1 ≤ lmax) ∧ (1 ≤ p.2 ∧ p.2 ≤ kmax) := by
  obtain ⟨a, b⟩ := p
  simp only [scanPairs, List.mem_flatMap, List.mem_map, List.mem_range'_1]
  constructor
  · rintro ⟨l, hl, k, hk, heq⟩
    rw [Prod.mk.injEq] at heq
    obtain ⟨rfl, rfl⟩ := heq
    constructor <;> omega
  · rintro ⟨⟨h1, h2⟩, ⟨h3, h4⟩⟩
    exact ⟨a, by omega, b, by omega, rfl⟩

/-- The scan visits the grid in strict lexicographic order (`l` major). -/
theorem scanPairs_sorted (kmax lmax : Nat) :
    (scanPairs kmax lmax).Pairwise
      (fun a b => a.1 < b.1 ∨ (a.1 = b.1 ∧ a.2 < b.2)) := by
  unfold scanPairs
  rw [List.flatMap_def, List.pairwise_flatten]
  constructor
  · intro l hl
    rw [List.mem_map] at hl
    obtain ⟨lv, hlv, rfl⟩ := hl
    rw [List.pairwise_map]
    apply List.Pairwise.imp ?_ (List.pairwise_lt_range' 1 kmax)
    intro k1 k2 hk
    exact Or.inr ⟨rfl, hk⟩
  · rw [List.pairwise_map]
    apply List.Pairwise.imp ?_ (List.pairwise_lt_range' 1 lmax)
    intro l1 l2 hl a ha b hb
    rw [List.mem_map] at ha hb
    obtain ⟨k1, -, rfl⟩ := ha
    obtain ⟨k2, -, rfl⟩ := hb
    exact Or.inl hl

/-- Helper for round-trip containment: after `Add` (with staged tables as
computed by `genHs`) and `Index`, the query body at `K = k`, `L = l` on
the same signature succeeds and contains the added key. -/
theorem add_index_contains (f : LshForest) (key : String) (sig : List Nat)
    (Hs : List GoStr) (hre : Reached f) (hl1 : 1 ≤ f.l)
    (hlen : f.k * f.l ≤ sig.length)
    (hHs : genHs f sig (f.k : Int) f.l = some Hs) :
    ∃ out,
      queryBody
        (Index { f with initHashTables :=
          (f.initHashTables.zip Hs).map (fun p => updateInit p.1 p.2 key) })
        sig (f.k : Int) (f.l : Int) = some out ∧ key ∈ out := by
  have hsig : ∀ i, i < f.l → i * f.k + f.k ≤ sig.length := by
    intro i hi
    have h1 : (i + 1) * f.k ≤ f.l * f.k := Nat.mul_le_mul_right f.k (by omega)
    have h2 : (i + 1) * f.k = i * f.k + f.k := by ring
    have h3 : f.l * f.k = f.k * f.l := Nat.mul_comm f.l f.k
    omega
  have hHs2 := genHs_eq f sig f.k f.l hsig
  rw [hHs2, Option.some.injEq] at hHs
  subst hHs
  have hAddEq := Add_some f key sig _ hHs2
  have hre2 := Reached.idx _ (Reached.add f key sig _ hre hAddEq)
  have hInv := reached_inv hre2
  obtain ⟨out, hout, hnodup, hiff⟩ :=
    queryBody_spec _ sig f.k f.l hInv (le_refl f.k) (le_refl f.l)
      (fun i hi => hsig i hi)
  refine ⟨out, hout, ?_⟩
  simp only [Index] at hiff
  rw [hiff]
  have hil0 := (reached_inv hre).1
  have htl0 := (reached_inv hre).2.1
  have h0i : (0 : Nat) < f.initHashTables.length := by omega
  refine ⟨0, hl1, ?_, ?_⟩
  · simp only [List.length_map, List.length_zip, List.length_range]
    omega
  · simp only [List.get_eq_getElem, List.getElem_map, List.getElem_zip, List.getElem_range]
    obtain ⟨ks, hksmem, hkeyin⟩ := updateInit_self_mem
      (hashKeyFunc f.hashValueSize ((sig.drop (0 * f.k)).take f.k)) key
      (f.initHashTables.get ⟨0, h0i⟩)
    refine ⟨{ hashKey := hashKeyFunc f.hashValueSize ((sig.drop (0 * f.k)).take f.k)
              keys := ks }, ?_, ?_, hkeyin⟩
    · rw [indexBand, sortHT_mem, List.mem_append]
      right
      rw [List.mem_map]
      exact ⟨(hashKeyFunc f.hashValueSize ((sig.drop (0 * f.k)).take f.k), ks), hksmem, rfl⟩
    · have hlenfk : f.k ≤ sig.length := by
        have := Nat.mul_le_mul_left f.k hl1
        omega
      have hwin : ((sig.drop (0 * f.k)).take f.k).length = f.k := by
        rw [List.length_take, List.length_drop]
        omega
      have hfull : (hashKeyFunc f.hashValueSize ((sig.drop (0 * f.k)).take f.k)).length =
          f.hashValueSize * f.k := by
        rw [hashKeyFunc_length, hwin]
      show (hashKeyFunc f.hashValueSize ((sig.drop (0 * f.k)).take f.k)).take
          (f.hashValueSize * f.k) =
        hashKeyFunc f.hashValueSize ((sig.drop (0 * f.k)).take f.k)
      rw [← hfull, List.take_length]

/-- The empty 1-band, 1-row forest (`NewLshForest16(1, 1)` would produce
it with `hashValueSize = 2`; width 1 keeps the witnesses small). -/
def forestA0 : LshForest :=
  { k := 1, l := 1, hashValueSize := 1, initHashTables := [[]], hashTables := [[]] }

/-- `forestA0` after `Add "a" [5]`. -/
def forestA1 : LshForest :=
  { k := 1, l := 1, hashValueSize := 1, initHashTables := [[([5], ["a"])]],
    hashTables := [[]] }

/-- `forestA1` after `Index`. -/
def forestA2 : LshForest := Index forestA1

/-- The empty 2-band, 2-row forest. -/
def forestB0 : LshForest :=
  { k := 2, l := 2, hashValueSize := 1, initHashTables := [[], []],
    hashTables := [[], []] }

/-- `forestB0` after `Add "a" [1, 2, 3, 4]`. -/
def forestB1 : LshForest :=
  { k := 2, l := 2, hashValueSize := 1,
    initHashTables := [[([1, 2], ["a"])], [([3, 4], ["a"])]],
    hashTables := [[], []] }

/-- `forestB1` after `Index`. -/
def forestB2 : LshForest := Index forestB1

theorem reached_forestA2 : Reached forestA2 :=
  Reached.idx forestA1
    (Reached.add forestA0 "a" [5] forestA1 (Reached.init 1 1 1 forestA0 rfl) rfl)

theorem reached_forestB2 : Reached forestB2 :=
  Reached.idx forestB1
    (Reached.add forestB0 "a" [1, 2, 3, 4] forestB1
      (Reached.init 2 2 1 forestB0 rfl) rfl)

/-- Claim C1: for every item key and every signature of length at least
`k·l`, if the key is added with `Add` and then `Index` is called, a
subsequent `Query` with that same signature at `K = k` and `L = l`
(equivalently at the sentinel `-1, -1`) returns a result set containing
the item's key. -/
theorem C1_round_trip_containment (f g : LshForest) (key : String) (sig : List Nat)
    (hre : Reached f) (hk1 : 1 ≤ f.k) (hl1 : 1 ≤ f.l)
    (hlen : f.k * f.l ≤ sig.length) (hadd : Add f key sig = some g) :
    ∃ out, Query (Index g) sig (f.k : Int) (f.l : Int) = some out ∧ key ∈ out ∧
      Query (Index g) sig (-1) (-1) = some out := by
  obtain ⟨Hs, hHs, rfl⟩ := Add_inv hadd
  obtain ⟨out, hout, hkey⟩ := add_index_contains f key sig Hs hre hl1 hlen hHs
  refine ⟨out, ?_, hkey, ?_⟩
  · rw [Query_natCast]
    exact hout
  · rw [Query_default]
    exact hout

theorem C1_round_trip_containment_witness :
    (1 ≤ forestA0.k) ∧ (1 ≤ forestA0.l) ∧ (forestA0.k * forestA0.l ≤ [5].length) ∧
    ∃ out, Query (Index forestA1) [5] (forestA0.k : Int) (forestA0.l : Int) = some out ∧
      "a" ∈ out ∧ Query (Index forestA1) [5] (-1) (-1) = some out :=
  ⟨by decide, by decide, by decide,
    C1_round_trip_containment forestA0 forestA1 "a" [5]
      (Reached.init 1 1 1 forestA0 rfl) (by decide) (by decide) (by decide) rfl⟩

/-- Claim C2: on a built index, for `1 ≤ K₁ ≤ K₂ ≤ k` and `1 ≤ L ≤ l`,
the result set of `Query` at `K₁` is a superset of the result set at `K₂`
on the same signature and `L`. -/
theorem C2_prefix_monotonicity (f : LshForest) (sig : List Nat) (K1 K2 L : Nat)
    (hre : Reached f) (h11 : 1 ≤ K1) (h12 : K1 ≤ K2) (h2k : K2 ≤ f.k)
    (hL1 : 1 ≤ L) (hLl : L ≤ f.l) (hlen : f.k * f.l ≤ sig.length) :
    ∃ out1 out2, Query f sig (K1 : Int) (L : Int) = some out1 ∧
      Query f sig (K2 : Int) (L : Int) = some out2 ∧
      ∀ key ∈ out2, key ∈ out1 := by
  have hInv := reached_inv hre
  have hsig : ∀ K, K ≤ f.k → ∀ i, i < L → i * f.k + K ≤ sig.length := by
    intro K hK i hi
    have h1 : (i + 1) * f.k ≤ f.l * f.k := Nat.mul_le_mul_right f.k (by omega)
    have h2 : (i + 1) * f.k = i * f.k + f.k := by ring
    have h3 : f.l * f.k = f.k * f.l := Nat.mul_comm f.l f.k
    omega
  obtain ⟨out1, hout1, hnd1, hiff1⟩ :=
    queryBody_spec f sig K1 L hInv (le_trans h12 h2k) hLl (hsig K1 (le_trans h12 h2k))
  obtain ⟨out2, hout2, hnd2, hiff2⟩ :=
    queryBody_spec f sig K2 L hInv h2k hLl (hsig K2 h2k)
  refine ⟨out1, out2, by rw [Query_natCast]; exact hout1,
    by rw [Query_natCast]; exact hout2, ?_⟩
  intro key hkey
  rw [hiff2] at hkey
  rw [hiff1]
  obtain ⟨i, hi, hi2, b, hb, hbk, hkeyb⟩ := hkey
  refine ⟨i, hi, hi2, b, hb, ?_, hkeyb⟩
  have hple : f.hashValueSize * K1 ≤ f.hashValueSize * K2 := Nat.mul_le_mul_left _ h12
  calc b.hashKey.take (f.hashValueSize * K1)
      = (b.hashKey.take (f.hashValueSize * K2)).take (f.hashValueSize * K1) := by
        rw [List.take_take, Nat.min_eq_left hple]
    _ = (hashKeyFunc f.hashValueSize ((sig.drop (i * f.k)).take K2)).take
          (f.hashValueSize * K1) := by rw [hbk]
    _ = hashKeyFunc f.hashValueSize (((sig.drop (i * f.k)).take K2).take K1) :=
        hashKeyFunc_take _ _ K1
    _ = hashKeyFunc f.hashValueSize ((sig.drop (i * f.k)).take K1) := by
        rw [List.take_take, Nat.min_eq_left h12]

theorem C2_prefix_monotonicity_witness :
    (1 ≤ 1) ∧ (1 ≤ 2) ∧ (2 ≤ forestB2.k) ∧ (2 ≤ forestB2.l) ∧
    (forestB2.k * forestB2.l ≤ [1, 2, 3, 4].length) ∧
    ∃ out1 out2, Query forestB2 [1, 2, 3, 4] 1 2 = some out1 ∧
      Query forestB2 [1, 2, 3, 4] 2 2 = some out2 ∧
      ∀ key ∈ out2, key ∈ out1 :=
  ⟨by decide, by decide, by decide, by decide, by decide,
    C2_prefix_monotonicity forestB2 [1, 2, 3, 4] 1 2 2 reached_forestB2
      (by decide) (by decide) (by decide) (by decide) (by decide) (by decide)⟩

theorem queryBody_nodup (f : LshForest) (sig : List Nat) (K L : Int)
    (out : List String) (h : queryBody f sig K L = some out) : out.Nodup := by
  unfold queryBody at h
  split_ifs at h
  rw [Option.bind_eq_some] at h
  obtain ⟨Hs, -, h⟩ := h
  rw [Option.bind_eq_some] at h
  obtain ⟨outs, -, h⟩ := h
  rw [Option.some.injEq] at h
  rw [← h]
  exact dedup_nodup _

/-- Claim C3: every successful `Query` returns a sequence with each
distinct item key at most once, whatever the index state. -/
theorem C3_query_dedup (f : LshForest) (sig : List Nat) (K L : Int)
    (out : List String) (h : Query f sig K L = some out) : out.Nodup := by
  unfold Query at h
  exact queryBody_nodup f sig _ _ out h

theorem C3_query_dedup_witness :
    (Query forestB2 [1, 2, 3, 4] 1 2 = some ["a"]) ∧ List.Nodup ["a"] :=
  ⟨by decide, C3_query_dedup forestB2 [1, 2, 3, 4] 1 2 ["a"] (by decide)⟩

/-- Adjacent-strictness check: a sorted band table satisfies it exactly
when no two buckets share an encoded hash key. -/
def strictAdj : hashTable → Bool
  | [] => true
  | [_] => true
  | a :: b :: rest => strLt a.hashKey b.hashKey && strictAdj (b :: rest)

/-- Claim C5 (amended): after every `Index` call (indeed in every
reachable state) each band table is sorted non-decreasing by encoded
hash key; strict sortedness can fail when an `Index` stages a hash key
already present in the band table. -/
theorem C5_tables_sorted (f : LshForest) (hre : Reached f) :
    ∀ ht ∈ f.hashTables, tableSorted ht :=
  fun ht hht => ((reached_inv hre).2.2.1 ht hht).1

theorem C5_tables_sorted_witness :
    Reached forestB2 ∧ ∀ ht ∈ forestB2.hashTables, tableSorted ht :=
  ⟨reached_forestB2, C5_tables_sorted forestB2 reached_forestB2⟩

/-- Claim C5 counterexample: adding a second item whose band hash key is
already in the band table and calling `Index` again yields a band table
with two buckets sharing the encoded hash key, so the table is not
strictly sorted. -/
theorem C5_counterexample :
    ((do
      let f ← newLshForest 1 1 1
      let f1 ← Add f "a" [5]
      let f3 ← Add (Index f1) "b" [5]
      some (Index f3) : Option LshForest)).map
        (fun g => g.hashTables.all strictAdj) = some false := by decide

/-- `forestB2` after `Add "b" [5, 6, 7, 8]`. -/
def forestB3 : LshForest :=
  { k := 2, l := 2, hashValueSize := 1,
    initHashTables := [[([5, 6], ["b"])], [([7, 8], ["b"])]],
    hashTables := [[{ hashKey := [1, 2], keys := ["a"] }],
      [{ hashKey := [3, 4], keys := ["a"] }]] }

theorem reached_forestB3 : Reached forestB3 :=
  Reached.add forestB2 "b" [5, 6, 7, 8] forestB3 reached_forestB2 (by decide)

/-- Claim C4: indexing is strictly additive over the index's lifetime:
every bucket in a band table survives any later `Add`/`Index` sequence at
its band position, and an item key retrievable by its own signature stays
retrievable after any such sequence. -/
theorem C4_index_additive (f g : LshForest) (key : String) (sig : List Nat)
    (hre : Reached f) (hev : Evolves f g) (hlen : f.k * f.l ≤ sig.length) :
    (∀ i (hi : i < f.hashTables.length), ∃ hig : i < g.hashTables.length,
      ∀ b ∈ f.hashTables.get ⟨i, hi⟩, b ∈ g.hashTables.get ⟨i, hig⟩) ∧
    (∀ out, Query f sig (f.k : Int) (f.l : Int) = some out → key ∈ out →
      ∃ outg, Query g sig (f.k : Int) (f.l : Int) = some outg ∧ key ∈ outg) := by
  constructor
  · exact evolves_table_mem hre hev
  · intro out hq hkey
    have hInvf := reached_inv hre
    have hInvg := reached_inv (evolves_reached hre hev)
    obtain ⟨hgk, hgl, hgv⟩ := evolves_fields hev
    have hsigf : ∀ i, i < f.l → i * f.k + f.k ≤ sig.length := by
      intro i hi
      have h1 : (i + 1) * f.k ≤ f.l * f.k := Nat.mul_le_mul_right f.k (by omega)
      have h2 : (i + 1) * f.k = i * f.k + f.k := by ring
      have h3 : f.l * f.k = f.k * f.l := Nat.mul_comm f.l f.k
      omega
    obtain ⟨out1, hout1, hnd1, hiff1⟩ :=
      queryBody_spec f sig f.k f.l hInvf (le_refl _) (le_refl _) hsigf
    rw [Query_natCast, hout1, Option.some.injEq] at hq
    subst hq
    rw [hiff1] at hkey
    obtain ⟨i, hi, hi2, b, hb, hbk, hkeyb⟩ := hkey
    obtain ⟨hig, hmem⟩ := evolves_table_mem hre hev i hi2
    obtain ⟨outg, houtg, hndg, hiffg⟩ :=
      queryBody_spec g sig f.k f.l hInvg (by omega) (by omega)
        (by intro i2 h2b; rw [hgk]; exact hsigf i2 h2b)
    refine ⟨outg, by rw [Query_natCast]; exact houtg, ?_⟩
    rw [hiffg]
    refine ⟨i, hi, hig, b, hmem b hb, ?_, hkeyb⟩
    rw [hgv, hgk]
    exact hbk

theorem C4_index_additive_witness :
    (forestB2.k * forestB2.l ≤ [1, 2, 3, 4].length) ∧
    ((∀ i (hi : i < forestB2.hashTables.length),
        ∃ hig : i < (Index forestB3).hashTables.length,
        ∀ b ∈ forestB2.hashTables.get ⟨i, hi⟩,
          b ∈ (Index forestB3).hashTables.get ⟨i, hig⟩) ∧
      (∀ out, Query forestB2 [1, 2, 3, 4] (forestB2.k : Int) (forestB2.l : Int) =
          some out → "a" ∈ out →
        ∃ outg, Query (Index forestB3) [1, 2, 3, 4]
            (forestB2.k : Int) (forestB2.l : Int) = some outg ∧ "a" ∈ outg)) :=
  ⟨by decide,
    C4_index_additive forestB2 (Index forestB3) "a" [1, 2, 3, 4] reached_forestB2
      (Evolves.idx forestB2 forestB3
        (Evolves.add forestB2 forestB2 forestB3 "b" [5, 6, 7, 8]
          (Evolves.refl forestB2) (by decide)))
      (by decide)⟩

/-- Claim C9: in every reachable forest, every stored bucket's encoded
hash key has length exactly `hashValueSize · k`, hence the prefix slice
`hashKey[:hashValueSize·K]` taken by `Query` for any `1 ≤ K ≤ k` is in
bounds (the slice succeeds instead of panicking). -/
theorem C9_prefix_slice_in_bounds (f : LshForest) (hre : Reached f) :
    ∀ ht ∈ f.hashTables, ∀ b ∈ ht,
      b.hashKey.length = f.hashValueSize * f.k ∧
      ∀ K : Nat, 1 ≤ K → K ≤ f.k →
        goSlice b.hashKey 0 ((f.hashValueSize : Int) * (K : Int)) =
          some (b.hashKey.take (f.hashValueSize * K)) := by
  intro ht hht b hb
  have hI := (reached_inv hre).2.2.1 ht hht
  have hlen := (hI.2 b hb).1
  refine ⟨hlen, ?_⟩
  intro K h1 hK
  have hle : f.hashValueSize * K ≤ b.hashKey.length := by
    rw [hlen]
    exact Nat.mul_le_mul_left _ hK
  have hcast : (f.hashValueSize : Int) * (K : Int) =
      ((f.hashValueSize * K : Nat) : Int) := by
    push_cast
    ring
  rw [hcast]
  exact goSlice_take hle

theorem C9_prefix_slice_in_bounds_witness :
    Reached forestB2 ∧
    ∀ ht ∈ forestB2.hashTables, ∀ b ∈ ht,
      b.hashKey.length = forestB2.hashValueSize * forestB2.k ∧
      ∀ K : Nat, 1 ≤ K → K ≤ forestB2.k →
        goSlice b.hashKey 0 ((forestB2.hashValueSize : Int) * (K : Int)) =
          some (b.hashKey.take (forestB2.hashValueSize * K)) :=
  ⟨reached_forestB2, C9_prefix_slice_in_bounds forestB2 reached_forestB2⟩

/-- Claim C10: in every reachable forest, every staging-table entry and
every band-table bucket carries a non-empty item-key list. -/
theorem C10_buckets_nonempty (f : LshForest) (hre : Reached f) :
    (∀ iht ∈ f.initHashTables, ∀ p ∈ iht, p.2 ≠ []) ∧
    (∀ ht ∈ f.hashTables, ∀ b ∈ ht, b.keys ≠ []) := by
  have hI := reached_inv hre
  exact ⟨fun iht hi p hp => (hI.2.2.2 iht hi p hp).2,
    fun ht hh b hb => ((hI.2.2.1 ht hh).2 b hb).2⟩

theorem C10_buckets_nonempty_witness :
    (∀ iht ∈ forestB3.initHashTables, ∀ p ∈ iht, p.2 ≠ []) ∧
    (∀ ht ∈ forestB3.hashTables, ∀ b ∈ ht, b.keys ≠ []) :=
  C10_buckets_nonempty forestB3 reached_forestB3

/-- Claim C6 (code evaluated at the failing input): the constructor's
guard is `k < 0 || l < 0`, so `k = 0` (or `l = 0`) is accepted and an
index is constructed, while genuinely negative arguments do panic; the
panic message "k and l must be positive" documents the intended check,
which the guard fails to implement. -/
theorem C6_zero_accepted :
    (newLshForest 0 5 4).isSome = true ∧ newLshForest (-1) 5 4 = none := by decide

/-- Claim C7 counterexample: on a built 2-band index, a `Query` with
`K = 0` (outside `[1, k]`) does not fail: it silently matches every
bucket of the searched bands and returns the full key set. -/
theorem C7_counterexample :
    ((do
      let f ← newLshForest 2 2 1
      let f1 ← Add f "a" [1, 2, 3, 4]
      Query (Index f1) [1, 2, 3, 4] 0 2 : Option (List String))) = some ["a"] := by
  decide

/-- Claim C7 (amended): `Query` performs no validation of its `K`, `L`
parameters; in particular `L = 0`, though outside `[1, l]`, silently
returns an empty result for every forest, signature and `K`, and
out-of-range values can only fail incidentally through out-of-bounds
slicing. -/
theorem C7_no_validation (f : LshForest) (sig : List Nat) (K0 : Int) :
    Query f sig K0 0 = some [] := rfl

/-- Claim C8: for an index with `k ≥ 1`, `l ≥ 1` and a `[0,1]`-valued
probability capability, `OptimalKL` returns `optK ∈ [1,k]`,
`optL ∈ [1,l]` and the chosen pair's `fp`, `fn` with `fp + fn` minimal
over the whole scanned grid; on exact ties the first-found pair in scan
order wins (`l` outermost ascending, `k` innermost ascending): smaller
`l`, then smaller `k`. -/
theorem C8_optimalKL_valid (probFP probFN : Int → Int → Nat → Nat → ℚ → ℚ → ℚ)
    (f : LshForest) (x q : Int) (t : ℚ) (hk1 : 1 ≤ f.k) (hl1 : 1 ≤ f.l)
    (hfp : ∀ lv kv, 0 ≤ probFP x q lv kv t integrationPrecision ∧
      probFP x q lv kv t integrationPrecision ≤ 1)
    (hfn : ∀ lv kv, 0 ≤ probFN x q lv kv t integrationPrecision ∧
      probFN x q lv kv t integrationPrecision ≤ 1) :
    ∃ optK optL fp fn,
      OptimalKL probFP probFN f x q t = (optK, optL, fp, fn) ∧
      1 ≤ optK ∧ optK ≤ f.k ∧ 1 ≤ optL ∧ optL ≤ f.l ∧
      fp = probFP x q optL optK t integrationPrecision ∧
      fn = probFN x q optL optK t integrationPrecision ∧
      ∀ lv kv, 1 ≤ lv → lv ≤ f.l → 1 ≤ kv → kv ≤ f.k →
        (fp + fn ≤ probFP x q lv kv t integrationPrecision +
          probFN x q lv kv t integrationPrecision) ∧
        (probFP x q lv kv t integrationPrecision +
          probFN x q lv kv t integrationPrecision = fp + fn →
          optL < lv ∨ (optL = lv ∧ optK ≤ kv)) := by
  have hMax : ∀ p : Nat × Nat, optErrOf probFP probFN x q t p < MaxFloat64 := by
    intro p
    have h1 := hfp p.1 p.2
    have h2 := hfn p.1 p.2
    have hb : optErrOf probFP probFN x q t p ≤ 2 := by
      unfold optErrOf
      linarith [h1.1, h1.2, h2.1, h2.2]
    have h3 : (2 : ℚ) < MaxFloat64 := by norm_num [MaxFloat64]
    linarith
  rcases foldl_optStep_char probFP probFN x q t (scanPairs f.k f.l)
      { minError := MaxFloat64, optK := 0, optL := 0, fp := 0, fn := 0 } with
    ⟨heq, hall⟩ | ⟨l₁, p, l₂, hsplit, heq, hplt, hl1s, hl2s⟩
  · exfalso
    have hmem : ((1 : Nat), (1 : Nat)) ∈ scanPairs f.k f.l := by
      rw [scanPairs_mem]
      exact ⟨⟨le_refl 1, hl1⟩, ⟨le_refl 1, hk1⟩⟩
    have h4 : MaxFloat64 ≤ optErrOf probFP probFN x q t (1, 1) := hall (1, 1) hmem
    have h5 := hMax (1, 1)
    linarith
  · have hpmem : p ∈ scanPairs f.k f.l := by
      rw [hsplit]
      exact List.mem_append_right _ (List.mem_cons_self _ _)
    have hpbounds := (scanPairs_mem f.k f.l p).mp hpmem
    refine ⟨p.2, p.1, probFP x q p.1 p.2 t integrationPrecision,
      probFN x q p.1 p.2 t integrationPrecision, ?_, hpbounds.2.1, hpbounds.2.2,
      hpbounds.1.1, hpbounds.1.2, rfl, rfl, ?_⟩
    · simp only [OptimalKL]
      rw [heq]
      rfl
    · intro lv kv h1 h2 h3 h4
      have hqmem : ((lv, kv) : Nat × Nat) ∈ scanPairs f.k f.l := by
        rw [scanPairs_mem]
        exact ⟨⟨h1, h2⟩, ⟨h3, h4⟩⟩
      rw [hsplit, List.mem_append, List.mem_cons] at hqmem
      constructor
      · rcases hqmem with hq1 | hq2 | hq3
        · have := hl1s (lv, kv) hq1
          unfold optErrOf at this
          linarith
        · rw [← hq2]
        · have := hl2s (lv, kv) hq3
          unfold optErrOf at this
          linarith
      · intro htie
        rcases hqmem with hq1 | hq2 | hq3
        · exfalso
          have := hl1s (lv, kv) hq1
          unfold optErrOf at this
          linarith
        · refine Or.inr ⟨?_, ?_⟩
          · rw [← hq2]
          · rw [← hq2]
        · have hsorted := scanPairs_sorted f.k f.l
          rw [hsplit] at hsorted
          have hrel : ∀ r ∈ l₂, p.1 < r.1 ∨ (p.1 = r.1 ∧ p.2 < r.2) :=
            (List.pairwise_cons.mp (List.pairwise_append.mp hsorted).2.1).1
          rcases hrel (lv, kv) hq3 with hc | hc
          · exact Or.inl hc
          · exact Or.inr ⟨hc.1, le_of_lt hc.2⟩

/-- A constant probability capability used to instantiate the optimiser
theorem at a concrete input. -/
def constHalf : Int → Int → Nat → Nat → ℚ → ℚ → ℚ := fun _ _ _ _ _ _ => 1 / 2

theorem C8_optimalKL_valid_witness :
    (1 ≤ forestB0.k) ∧ (1 ≤ forestB0.l) ∧
    ∃ optK optL fp fn,
      OptimalKL constHalf constHalf forestB0 10 5 (1 / 2) = (optK, optL, fp, fn) ∧
      1 ≤ optK ∧ optK ≤ forestB0.k ∧ 1 ≤ optL ∧ optL ≤ forestB0.l ∧
      fp = constHalf 10 5 optL optK (1 / 2) integrationPrecision ∧
      fn = constHalf 10 5 optL optK (1 / 2) integrationPrecision ∧
      ∀ lv kv, 1 ≤ lv → lv ≤ forestB0.l → 1 ≤ kv → kv ≤ forestB0.k →
        (fp + fn ≤ constHalf 10 5 lv kv (1 / 2) integrationPrecision +
          constHalf 10 5 lv kv (1 / 2) integrationPrecision) ∧
        (constHalf 10 5 lv kv (1 / 2) integrationPrecision +
          constHalf 10 5 lv kv (1 / 2) integrationPrecision = fp + fn →
          optL < lv ∨ (optL = lv ∧ optK ≤ kv)) :=
  ⟨by decide, by decide,
    C8_optimalKL_valid constHalf constHalf forestB0 10 5 (1 / 2) (by decide) (by decide)
      (fun lv kv => by norm_num [constHalf])
      (fun lv kv => by norm_num [constHalf])⟩

end LshEnsemble
